import Mathlib

/-!
Verification development for the `do-something` hierarchical command dispatcher.

The Rust sources are shallowly embedded: the `Group`/`Command` configuration
tree, the controlled tree walk (`Group::walk_tree`), scope filtering
(`Command::is_in_scope`), alias-aware scoring (`Match::from_command`),
per-file match collection (`DsFile::matches`), multi-source conflict
resolution (`DoSomething::match_command`), environment merging and selection
(`Command::resolve_envs`, `match_env`), and default-command resolution
(`Group::get_default_command`, `Command::resolve_default`).

Conventions of the embedding:
- `BTreeMap` values are modelled as association lists (`List (String × _)`);
  keyed access is `lookup` (first entry with the key, matching map semantics
  since map keys are unique).
- Filesystem paths are modelled as component lists (`List String`); `Path`
  prefix tests become `List.isPrefixOf`.
- Ambient path resolution (`dir::resolve_path`: tilde expansion and
  absolutization) is injected as an explicit `resolve` function argument,
  `String → Except String Path`.
- Fallible Rust functions returning `anyhow::Result` become
  `Except String _`; error messages follow the sources (quote characters
  around interpolated values are dropped).
- Mutable `Vec` push/pop state in the walker is threaded explicitly; the
  `calls` field of `WalkResult` is ghost instrumentation recording the
  arguments of every visitor invocation, so that properties about what the
  visitor observes can be stated.
-/

namespace DS

/-- Path in the file system, as a list of components
(`PathBuf` in the sources). -/
abbrev Path := List String

/-- From `command.rs` `RootScope`: when a command or group is available to run. -/
inductive RootScope where
  | global
  | gitRoot
  | exact
deriving DecidableEq, Repr

/-- From `command.rs` `RootConfig`: where the command or group is run from. -/
structure RootConfig where
  path : String
  scope : RootScope
deriving DecidableEq, Repr

/-- From `group.rs` `GroupMode`: namespaced (default) or flattened into the
parent namespace. -/
inductive GroupMode where
  | namespaced
  | flattened
deriving DecidableEq, Repr

/-- From `env.rs` `DotenvConfig`: a dotenv file path plus optional extra vars. -/
structure DotenvConfig where
  path : String
  vars : Option (List (String × String))
deriving DecidableEq, Repr

/-- From `env.rs` `EnvCommand`: a command to load environment variables. -/
structure EnvCommand where
  command : String
  vars : Option (List (String × String))
deriving DecidableEq, Repr

/-- From `env.rs` `EnvVars`: environment variables given directly. -/
structure EnvVars where
  vars : List (String × String)
deriving DecidableEq, Repr

/-- From `env.rs` `Env`: an environment definition. -/
inductive Env where
  | dotenv (path : String)
  | config (c : DotenvConfig)
  | command (c : EnvCommand)
  | vars (v : EnvVars)
deriving DecidableEq, Repr

/-- From `command.rs` `CommandConfig`: configuration for a single command. -/
structure CommandConfig where
  name : Option String
  description : Option String
  command : String
  envs : Option (List (String × Env))
  default_env : Option String
  root : Option RootConfig
  aliases : Option (List String)
deriving DecidableEq, Repr

/-- From `config.rs` `OnConflict`: how to handle commands with the same key
across files. -/
inductive OnConflict where
  | override
  | error
deriving DecidableEq, Repr

mutual

/-- From `command.rs` `Command`: a command definition in a group commands map. -/
inductive Command where
  | inline (cmd : String)
  | config (cfg : CommandConfig)
  | group (g : Group)

/-- From `group.rs` `Group`: a group of commands sharing configuration.
Fields follow the Rust struct; `commands` is the `BTreeMap` in key order. -/
inductive Group where
  | mk (name : Option String) (description : Option String) (default : String)
       (commands : List (String × Command))
       (envs : Option (List (String × Env)))
       (default_env : Option String)
       (root : Option RootConfig)
       (mode : Option GroupMode)
       (aliases : Option (List String))
end

def Group.name : Group → Option String
  | .mk v _ _ _ _ _ _ _ _ => v

def Group.description : Group → Option String
  | .mk _ v _ _ _ _ _ _ _ => v

def Group.default : Group → String
  | .mk _ _ v _ _ _ _ _ _ => v

def Group.commands : Group → List (String × Command)
  | .mk _ _ _ v _ _ _ _ _ => v

def Group.envs : Group → Option (List (String × Env))
  | .mk _ _ _ _ v _ _ _ _ => v

def Group.default_env : Group → Option String
  | .mk _ _ _ _ _ v _ _ _ => v

def Group.root : Group → Option RootConfig
  | .mk _ _ _ _ _ _ v _ _ => v

def Group.mode : Group → Option GroupMode
  | .mk _ _ _ _ _ _ _ v _ => v

def Group.aliases : Group → Option (List String)
  | .mk _ _ _ _ _ _ _ _ v => v

/-- Keyed lookup in an association list, the embedding of `BTreeMap::get`. -/
def lookup {α : Type} (m : List (String × α)) (k : String) : Option α :=
  (m.find? (fun p => p.1 == k)).map (fun p => p.2)

/-- From `group.rs` `Walk`: flow control for the tree walk. -/
inductive Walk where
  | continue
  | skip
  | stop
deriving DecidableEq, Repr

/-- Final state of a tree walk: the Rust function returns `Walk` and mutates
`keys`/`parents` and the visitor closure state in place; here they are
returned. `calls` is ghost instrumentation: the argument triple of every
visitor invocation, in invocation order. -/
structure WalkResult (σ : Type) where
  walk : Walk
  keys : List String
  parents : List Group
  state : σ
  calls : List (List String × Command × List Group)

mutual

/-- From `group.rs` `Group::walk_tree`: push `self` on the parent stack, iterate
the commands (the loop is `walk_tree_go`). -/
def Group.walk_tree {σ : Type}
    (vis : σ → List String → Command → List Group → Walk × σ) (g : Group)
    (keys : List String) (parents : List Group) (s : σ) : WalkResult σ :=
  match g with
  | .mk nm ds df cs es de rt md al =>
    walk_tree_go vis cs keys (parents ++ [Group.mk nm ds df cs es de rt md al]) s

/-- The loop body of `Group::walk_tree`: for each `(key, command)` push the
key, invoke the visitor, recurse into sub-groups, pop the key; on `[]` pop
`self` from the stack (the trailing `parents.pop()`). -/
def walk_tree_go {σ : Type}
    (vis : σ → List String → Command → List Group → Walk × σ)
    (cmds : List (String × Command)) (keys : List String)
    (stack : List Group) (s : σ) : WalkResult σ :=
  match cmds with
  | [] => ⟨Walk.continue, keys, stack.dropLast, s, []⟩
  | (k, c) :: rest =>
    let ks := keys ++ [k]
    let (w, s1) := vis s ks c stack
    match w with
    | .skip =>
      let r := walk_tree_go vis rest keys stack s1
      ⟨r.walk, r.keys, r.parents, r.state, (ks, c, stack) :: r.calls⟩
    | .stop => ⟨Walk.stop, keys, stack.dropLast, s1, [(ks, c, stack)]⟩
    | .continue =>
      match c with
      | .group sub =>
        let ri := sub.walk_tree vis ks stack s1
        match ri.walk with
        | .stop =>
          ⟨Walk.stop, ri.keys.dropLast, ri.parents.dropLast, ri.state,
            (ks, c, stack) :: ri.calls⟩
        | _ =>
          let r := walk_tree_go vis rest ri.keys.dropLast ri.parents ri.state
          ⟨r.walk, r.keys, r.parents, r.state, (ks, c, stack) :: (ri.calls ++ r.calls)⟩
      | _ =>
        let r := walk_tree_go vis rest keys stack s1
        ⟨r.walk, r.keys, r.parents, r.state, (ks, c, stack) :: r.calls⟩
end

/-- From `group.rs` `Group::walk_commands`: walk the full tree starting from empty
key and parent stacks. -/
def Group.walk_commands {σ : Type} (g : Group) (s : σ)
    (vis : σ → List String → Command → List Group → Walk × σ) : WalkResult σ :=
  g.walk_tree vis [] [] s

/-- A key path from a group down to a command in the configuration tree,
together with the chain of groups strictly descended through. -/
inductive PathTo : Group → List String → Command → List Group → Prop where
  | here {g : Group} {k : String} {c : Command} :
      (k, c) ∈ g.commands → PathTo g [k] c []
  | there {g sub : Group} {k : String} {p : List String} {c : Command}
      {ch : List Group} :
      (k, Command.group sub) ∈ g.commands → PathTo sub p c ch →
      PathTo g (k :: p) c (sub :: ch)

/-- The statement of walker integrity at the group level: `walk_tree` restores
its key and parent stacks for every visitor, and every visitor invocation
observes exactly the literal key path of the visited node and the
root-to-parent group chain. -/
abbrev WalkTreeSpec {σ : Type}
    (vis : σ → List String → Command → List Group → Walk × σ) (g : Group)
    (keys : List String) (parents : List Group) (s : σ) : Prop :=
  (g.walk_tree vis keys parents s).keys = keys ∧
  (g.walk_tree vis keys parents s).parents = parents ∧
  ∀ ks c ps, (ks, c, ps) ∈ (g.walk_tree vis keys parents s).calls →
    ∃ p ch, ks = keys ++ p ∧ ps = parents ++ g :: ch ∧ PathTo g p c ch

/-- Walker integrity at the loop level, generalized over the split of the
stack into outer parents plus the current group. -/
abbrev WalkGoSpec {σ : Type}
    (vis : σ → List String → Command → List Group → Walk × σ)
    (cmds : List (String × Command)) (keys : List String) (stack : List Group)
    (s : σ) : Prop :=
  ∀ g parents, stack = parents ++ [g] → (∀ e ∈ cmds, e ∈ g.commands) →
    (walk_tree_go vis cmds keys stack s).keys = keys ∧
    (walk_tree_go vis cmds keys stack s).parents = parents ∧
    ∀ ks c ps, (ks, c, ps) ∈ (walk_tree_go vis cmds keys stack s).calls →
      ∃ p ch, ks = keys ++ p ∧ ps = parents ++ g :: ch ∧ PathTo g p c ch

/-- The `item_root` selection inside `command.rs` `Command::own_root` and
`Command::resolve_root`: the root configuration of the node itself. -/
def Command.item_root : Command → Option RootConfig
  | .config cfg => cfg.root
  | .group g => g.root
  | _ => none

/-- From `command.rs` `Command::own_root`: the node's own root configuration and
its resolved path; never consults parents. Path resolution
(`dir::resolve_path`) is the injected `resolve`. -/
def Command.own_root (resolve : String → Except String Path) (c : Command) :
    Except String (Option RootConfig × Option Path) :=
  match c.item_root with
  | some root =>
    match resolve root.path with
    | .ok p => .ok (some root, some p)
    | .error e => .error e
  | none => .ok (none, none)

/-- From `command.rs` `Command::is_in_scope`: visibility of the node for the
current directory and the discovered repository root. -/
def Command.is_in_scope (resolve : String → Except String Path) (c : Command)
    (current_dir : Path) (git_root : Option Path) : Except String Bool :=
  match c.own_root resolve with
  | .error e => .error e
  | .ok (some root_config, some target_path) =>
    match root_config.scope with
    | .exact => .ok (current_dir == target_path)
    | .gitRoot =>
      match git_root with
      | some gr => .ok (gr.isPrefixOf current_dir && gr == target_path)
      | none => .ok false
    | .global => .ok true
  | .ok _ => .ok true

/-- From `command.rs` `Command::resolve_root`: the node's own root or the nearest
parent's, resolved. -/
def Command.resolve_root (resolve : String → Except String Path) (c : Command)
    (parents : List Group) : Except String (Option Path) :=
  match c.item_root.or (parents.reverse.findSome? Group.root) with
  | some root =>
    match resolve root.path with
    | .ok p => .ok (some p)
    | .error e => .error e
  | none => .ok none

/-- From `command.rs` `Command::resolve_aliases`: the accepted names per path
level. The Rust loop skips the first parent (the file root group) and pairs
parent `i` with `keys[i - 1]`, which the zip below reproduces; flattened
groups contribute no level; the node level is the last key plus the node's
own aliases. -/
def Command.resolve_aliases (c : Command) (keys : List String)
    (parents : List Group) : List (List String) :=
  let parent_keys := ((parents.drop 1).zip keys).foldl
    (fun acc gk =>
      match gk.1.mode with
      | some GroupMode.flattened => acc
      | _ =>
        match gk.1.aliases with
        | some al => acc ++ [gk.2 :: al]
        | none => acc ++ [[gk.2]])
    []
  let last_key := keys.getLastD ""
  let command_keys := last_key :: (match c with
    | .inline _ => []
    | .config cfg => cfg.aliases.getD []
    | .group g => g.aliases.getD [])
  parent_keys ++ [command_keys]

/-- From `ds_file.rs` `Match`: the score (count of matched levels) and the
canonical key path of a matched command. -/
structure Match where
  file_path : String
  score : Nat
  keys : List String
deriving DecidableEq, Repr

/-- The scoring loop of `ds_file.rs` `Match::from_command`: count the leading
target tokens accepted by the per-level name sets, stopping at the first
miss or when either sequence runs out. -/
def match_score : List (List String) → List String → Nat
  | ks :: restA, t :: restT =>
    if ks.contains t then 1 + match_score restA restT else 0
  | _, _ => 0

/-- From `ds_file.rs` `Match::from_command`: no match when the score is zero or
when the node has more levels than were matched (nested). -/
def Match.from_command (file_path : String) (keys : List String)
    (alias_keys : List (List String)) (target : List String) : Option Match :=
  let score := match_score alias_keys target
  let is_nested := decide (score < alias_keys.length)
  if is_nested || score == 0 then none
  else some ⟨file_path, score, keys⟩

/-- From `ds_file.rs` `DsFile`: a parsed command file. Parsing (`from_json`) and
path display are external collaborators; the parsed group and paths are
taken as given. -/
structure DsFile where
  group : Group
  file_name : String
  path : String
  path_string : String

/-- From `ds_file.rs` `DsFile::matches`: walk the tree, skipping out-of-scope
nodes, stopping the walk (and failing) on a scope error, collecting a match
per node, then keeping only the matches of maximal score. -/
def DsFile.matches (resolve : String → Except String Path) (f : DsFile)
    (target : List String) (current_dir : Path) (git_root : Option Path) :
    Except String (List Match) :=
  let r := f.group.walk_commands (([] : List Match), (none : Option String))
    (fun s ks c ps =>
      match c.is_in_scope resolve current_dir git_root with
      | .error _ =>
        (Walk.stop, (s.1, some ("Error determining scope for command: " ++
          String.intercalate " " ks)))
      | .ok false => (Walk.skip, s)
      | .ok true =>
        match Match.from_command f.path ks (c.resolve_aliases ks ps) target with
        | some m => (Walk.continue, (s.1 ++ [m], s.2))
        | none => (Walk.continue, s))
  match r.state.2 with
  | some e => .error e
  | none =>
    let max_depth := (r.state.1.map Match.score).foldl Nat.max 0
    .ok (r.state.1.filter (fun m => m.score == max_depth))

/-- The loop of `do_something.rs` `DoSomething::match_command`: sources in
priority order; each file's matches are appended reversed; the conflict
policy is applied after every file. -/
def match_command_go (resolve : String → Except String Path)
    (policy : OnConflict) (target : List String) (current_dir : Path)
    (git_root : Option Path) :
    List Match → List DsFile → Except String (List Match)
  | ms, [] => .ok ms
  | ms, f :: rest =>
    match f.matches resolve target current_dir git_root with
    | .error e => .error e
    | .ok fms =>
      let ms2 := ms ++ fms.reverse
      match policy with
      | .override =>
        if ms2.isEmpty then
          match_command_go resolve policy target current_dir git_root ms2 rest
        else .ok ms2
      | .error =>
        if ms2.length > 1 then .error "Conflict detected in group"
        else match_command_go resolve policy target current_dir git_root ms2 rest

/-- From `do_something.rs` `DoSomething::match_command`: fold the sources under
the conflict policy and return the first collected match, if any (file
loading is done by the caller; the sources arrive as parsed files in
priority order). -/
def match_command (resolve : String → Except String Path) (policy : OnConflict)
    (files : List DsFile) (target : List String) (current_dir : Path)
    (git_root : Option Path) : Except String Match :=
  match match_command_go resolve policy target current_dir git_root [] files with
  | .error e => .error e
  | .ok ms =>
    match ms.head? with
    | none => .error "No matching command found"
    | some m => .ok m

/-- From `command.rs` `Command::env`: the node's own environment map. -/
def Command.env : Command → Option (List (String × Env))
  | .config cfg => cfg.envs
  | .group g => g.envs
  | _ => none

/-- From `command.rs` `Command::default_env`: the node's own default environment
name. -/
def Command.default_env : Command → Option String
  | .config cfg => cfg.default_env
  | .group g => g.default_env
  | _ => none

/-- From `BTreeMap::entry(key).or_insert(value)`: keep an existing binding for the
key, append the new one otherwise. -/
def or_insert (m : List (String × Env)) (kv : String × Env) :
    List (String × Env) :=
  if (m.find? (fun p => p.1 == kv.1)).isSome then m else m ++ [kv]

/-- From `command.rs` `Command::resolve_envs`: iterate the parents nearest-first;
every parent defining a `default_env` overwrites the running default while
the iterator is drained (so the last assignment, the root-most such parent,
ends up stored); merge the parents' maps nearest-first and then the node's
own map, each entry with first-wins `or_insert`; finally the node's own
`default_env`, when present, replaces the stored default. -/
def Command.resolve_envs (c : Command) (parents : List Group) :
    List (String × Env) × Option String :=
  let rev := parents.reverse
  let parent_default := rev.foldl
    (fun acc p =>
      match p.default_env with
      | some d => some d
      | none => acc)
    (none : Option String)
  let maps := rev.filterMap Group.envs ++ c.env.toList
  let merged := maps.foldl (fun m kvs => kvs.foldl or_insert m) []
  let d := match c.default_env with
    | some d => some d
    | none => parent_default
  (merged, d)

/-- From `env.rs` `match_env`: select an environment definition from the leading
argument token or from the default name. -/
def match_env (envs : List (String × Env)) (default_env : Option String)
    (args : List String) : Except String (Option (Env × List String)) :=
  if envs.isEmpty then .ok none
  else if args.isEmpty && !envs.isEmpty && default_env.isNone then
    .error "No environment specified, and no default environment is set"
  else
    match args.head?.bind (fun s => lookup envs s) with
    | some env => .ok (some (env, args.tail))
    | none =>
      match default_env with
      | some default_key =>
        match lookup envs default_key with
        | some env => .ok (some (env, args))
        | none =>
          .error ("Environment not found, and default environment " ++
            default_key ++ " is not found")
      | none => .error "Environment not found, and no default environment is set"

mutual

/-- From `group.rs` `Group::get_default_command`: follow the `default` key down
through nested groups until a non-group command or a missing key; the
optional `parents` accumulator records every group descended through (also
on a failed deeper descent, as with the Rust `&mut` argument). The map
access `commands.get(&curr.default)` is inlined as the search loop
`get_default_command_go`. -/
def Group.get_default_command (g : Group) (parents : Option (List Group)) :
    Option Command × Option (List Group) :=
  match g with
  | .mk nm ds df cs es de rt md al =>
    get_default_command_go df cs (Group.mk nm ds df cs es de rt md al) parents

/-- The inlined `BTreeMap::get` of `Group::get_default_command`: first entry
whose key equals the `default` key. -/
def get_default_command_go (df : String) (cs : List (String × Command))
    (curr : Group) (parents : Option (List Group)) :
    Option Command × Option (List Group) :=
  match cs with
  | [] => (none, parents)
  | (k, c) :: rest =>
    if k == df then
      match c with
      | .group sub => sub.get_default_command (parents.map (fun ps => ps ++ [curr]))
      | _ => (some c, parents)
    else get_default_command_go df rest curr parents
end

/-- From `command.rs` `Command::resolve_default`: a group resolves to its default
command when one exists, itself otherwise; other commands are fixed. -/
def Command.resolve_default (c : Command) (parents : Option (List Group)) :
    Command × Option (List Group) :=
  match c with
  | .group g =>
    match g.get_default_command parents with
    | (some cmd, ps) => (cmd, ps)
    | (none, ps) => (c, ps)
  | _ => (c, parents)

/-- From `command.rs` `Command::command`: the command string of the
default-resolved node; `none` for a group without default. -/
def Command.command (c : Command) : Option String :=
  match (c.resolve_default none).1 with
  | .inline cmd => some cmd
  | .config cfg => some cfg.command
  | .group _ => none

/-- From `runner.rs` `Runner` of the revision the callers use: a shell invocation
(with the working directory and the selected environment kept explicit here)
or the help signal. -/
inductive Runner where
  | command (invocation : String) (cwd : Option Path) (env : Option Env)
  | help
deriving DecidableEq, Repr

/-- Modelled from the spec: the per-token shell escaping delegated to the
external `shell_escape` collaborator (specification section 4.7: extra
tokens are individually escaped against whitespace and metacharacters);
plain tokens pass through, anything else is quoted. -/
def escape_arg (s : String) : String :=
  if s.toList.all (fun ch => ch.isAlphanum || ch == '-' || ch == '_' ||
      ch == '.' || ch == '/') then s
  else s.quote

/-- Modelled from the spec: `Runner::from_command` is missing from the
sources (only its caller `Command::runner` and an older `get_runner`
revision appear). Specification section 4.7: a resolved bare group with no
default yields the Help signal; otherwise the invocation is the optional
environment command prefix, the command string, and the escaped extra
tokens, with the working directory from `Command::resolve_root`. -/
def Runner.from_command (resolve : String → Except String Path) (c : Command)
    (parents : List Group) (extra_args : List String) (env : Option Env) :
    Except String Runner :=
  match c.command with
  | none => .ok Runner.help
  | some base =>
    match c.resolve_root resolve parents with
    | .error e => .error e
    | .ok cwd =>
      let pre := match env with
        | some (Env.command ec) => ec.command ++ " "
        | _ => ""
      .ok (Runner.command
        (pre ++ extra_args.foldl (fun acc a => acc ++ " " ++ escape_arg a) base)
        cwd env)

/-- A fallible result with the error message erased: `some` for success,
`none` for any error. -/
def toResultOption {α : Type} : Except String α → Option α
  | .ok a => some a
  | .error _ => none

/-- The case analysis of `match_env` exactly as the specification phrases it
(`none` denotes an error): no envs defined gives no selection with the
arguments untouched; envs defined with empty arguments and no default is an
error; a first argument naming a defined environment is consumed; otherwise
a default resolving to a defined environment is returned with the arguments
unconsumed; otherwise an error. -/
def spec_match_env (envs : List (String × Env)) (default_env : Option String)
    (args : List String) : Option (Option (Env × List String)) :=
  if envs.isEmpty then some none
  else
    match args with
    | [] =>
      match default_env with
      | none => none
      | some d =>
        match lookup envs d with
        | some v => some (some (v, []))
        | none => none
    | a :: rest =>
      match lookup envs a with
      | some v => some (some (v, rest))
      | none =>
        match default_env with
        | some d =>
          match lookup envs d with
          | some v => some (some (v, a :: rest))
          | none => none
        | none => none

/-- The default-environment selection as the specification phrases it: the
node's own `default_env` when defined, otherwise the default of the nearest
ancestor (nearest parent first) defining one. -/
def spec_nearest_default_env (c : Command) (parents : List Group) :
    Option String :=
  (c.default_env).or (parents.reverse.findSome? Group.default_env)

/-- The merged-environment lookup as the specification phrases it for name
collisions: the node's own entry beats any ancestor's, and a nearer
ancestor's beats a farther ancestor's (first-wins over node, nearest
ancestor, ..., farthest ancestor). -/
def spec_closest_env_lookup (c : Command) (parents : List Group) (k : String) :
    Option Env :=
  lookup ((c.env.toList ++ parents.reverse.filterMap Group.envs).flatten) k

/-- The merged-environment lookup as the code computes it, flattened:
first-wins over nearest ancestor, ..., farthest ancestor, then the node
itself. -/
def flat_env_lookup (c : Command) (parents : List Group) (k : String) :
    Option Env :=
  lookup ((parents.reverse.filterMap Group.envs ++ c.env.toList).flatten) k

def envAx : Env := Env.dotenv ".env.a.x"

def envBx : Env := Env.dotenv ".env.b.x"

def envBy : Env := Env.dotenv ".env.b.y"

def envNodeX : Env := Env.dotenv ".env.node.x"

/-- Ancestor A for the env claims: defines `x` and default env `a`. -/
def groupA : Group :=
  Group.mk none none "default" [] (some [("x", envAx)]) (some "a") none none none

/-- Ancestor B (nearer) for the env claims: defines `x`, `y`, default `b`. -/
def groupB : Group :=
  Group.mk none none "default" [("leaf", Command.inline "run")]
    (some [("x", envBx), ("y", envBy)]) (some "b") none none none

/-- A command node defining its own `x` entry. -/
def nodeWithX : Command :=
  Command.config ⟨none, none, "run", some [("x", envNodeX)], none, none, none⟩

def resolve_lit : String → Except String Path := fun s => .ok [s]

/-- A group anchored at `/repo` with `GitRoot` scope. -/
def gitScopedGroup : Group :=
  Group.mk none none "default" [("build", Command.inline "echo b")] none none
    (some ⟨"/repo", RootScope.gitRoot⟩) none none

def resolve_stub : String → Except String Path := fun _ => .error "unused"

/-- First conflicting source: defines `build`. -/
def conflictFileA : DsFile :=
  ⟨Group.mk none none "default" [("build", Command.inline "echo one")]
    none none none none none, "a.json", "a.json", "a.json"⟩

/-- Second conflicting source: also defines `build`. -/
def conflictFileB : DsFile :=
  ⟨Group.mk none none "default" [("build", Command.inline "echo two")]
    none none none none none, "b.json", "b.json", "b.json"⟩

/-- Occurrence test for a token inside a message: true when the needle
appears as a contiguous slice of the haystack. Used to state that an error
message does not name a path. -/
def has_slice : List Char → List Char → Bool
  | [], needle => needle.isEmpty
  | h :: t, needle => needle.isPrefixOf (h :: t) || has_slice t needle

/-- A source with no match for `build`. -/
def emptyFile : DsFile :=
  ⟨Group.mk none none "default" [("other", Command.inline "echo other")]
    none none none none none, "e.json", "e.json", "e.json"⟩

/-- A two-level tree for the walker witness. -/
def witSub : Group :=
  Group.mk none none "default" [("c", Command.inline "y")] none none none
    none none

def witTop : Group :=
  Group.mk none none "default"
    [("a", Command.inline "x"), ("b", Command.group witSub)] none none none
    none none

def witVis : Nat → List String → Command → List Group → Walk × Nat :=
  fun s _ _ _ => (Walk.continue, s + 1)

theorem walk_tree_go_spec {σ : Type}
    (vis : σ → List String → Command → List Group → Walk × σ) :
    ∀ cmds keys stack s, WalkGoSpec vis cmds keys stack s := by
  apply walk_tree_go.induct vis (motive_1 := WalkTreeSpec vis)
    (motive_2 := WalkGoSpec vis)
  case case1 =>
    intro keys parents s nm ds df cs es de rt md al ih
    exact ih (Group.mk nm ds df cs es de rt md al) parents rfl (fun _ he => he)
  case case2 =>
    intro keys stack s g parents hstack _
    subst hstack
    rw [walk_tree_go]
    simp
  case case3 =>
    intro keys stack s k c rest ks s1 hvis ih g parents hstack hsub
    subst hstack
    obtain ⟨ihk, ihp, ihc⟩ := ih g parents rfl
      (fun e he => hsub e (List.mem_cons_of_mem _ he))
    have hvis2 : vis s (keys ++ [k]) c (parents ++ [g]) = (Walk.skip, s1) := hvis
    rw [walk_tree_go, hvis2]
    refine ⟨ihk, ihp, ?_⟩
    intro ks2 c2 ps2 hmem
    simp only [List.mem_cons, Prod.mk.injEq] at hmem
    rcases hmem with ⟨h1, h2, h3⟩ | hmem
    · subst h1; subst h2; subst h3
      exact ⟨[k], [], rfl, by simp, PathTo.here (hsub _ (List.mem_cons_self _ _))⟩
    · exact ihc ks2 c2 ps2 hmem
  case case4 =>
    intro keys stack s k c rest ks s1 hvis g parents hstack hsub
    subst hstack
    have hvis2 : vis s (keys ++ [k]) c (parents ++ [g]) = (Walk.stop, s1) := hvis
    rw [walk_tree_go, hvis2]
    refine ⟨rfl, by simp, ?_⟩
    intro ks2 c2 ps2 hmem
    simp only [List.mem_cons, List.not_mem_nil, or_false, Prod.mk.injEq] at hmem
    obtain ⟨h1, h2, h3⟩ := hmem
    subst h1; subst h2; subst h3
    exact ⟨[k], [], rfl, by simp, PathTo.here (hsub _ (List.mem_cons_self _ _))⟩
  case case5 =>
    intro keys stack s k rest ks s1 sub ri hstop hvis ih g parents hstack hsub
    subst hstack
    obtain ⟨ihk, ihp, ihc⟩ := ih
    have hvis2 : vis s (keys ++ [k]) (Command.group sub) (parents ++ [g]) =
        (Walk.continue, s1) := hvis
    have hstop2 : (sub.walk_tree vis (keys ++ [k]) (parents ++ [g]) s1).walk =
        Walk.stop := hstop
    rw [walk_tree_go, hvis2]
    dsimp only
    rw [hstop2]
    dsimp only
    have ihk2 : (sub.walk_tree vis (keys ++ [k]) (parents ++ [g]) s1).keys =
        keys ++ [k] := ihk
    have ihp2 : (sub.walk_tree vis (keys ++ [k]) (parents ++ [g]) s1).parents =
        parents ++ [g] := ihp
    refine ⟨by rw [ihk2]; simp, by rw [ihp2]; simp, ?_⟩
    intro ks2 c2 ps2 hmem
    simp only [List.mem_cons, Prod.mk.injEq] at hmem
    rcases hmem with ⟨h1, h2, h3⟩ | hmem
    · subst h1; subst h2; subst h3
      exact ⟨[k], [], rfl, by simp, PathTo.here (hsub _ (List.mem_cons_self _ _))⟩
    · obtain ⟨p, ch, hks, hps, hpath⟩ := ihc ks2 c2 ps2 hmem
      have hks2 : ks2 = (keys ++ [k]) ++ p := hks
      refine ⟨k :: p, sub :: ch, by simp [hks2], by simp [hps], ?_⟩
      exact PathTo.there (hsub _ (List.mem_cons_self _ _)) hpath
  case case6 =>
    intro keys stack s k rest ks s1 sub ri hnstop hvis ih1 ih2 g parents hstack hsub
    subst hstack
    obtain ⟨ihk, ihp, ihc⟩ := ih1
    have ihk2 : (sub.walk_tree vis (keys ++ [k]) (parents ++ [g]) s1).keys =
        keys ++ [k] := ihk
    have ihp2 : (sub.walk_tree vis (keys ++ [k]) (parents ++ [g]) s1).parents =
        parents ++ [g] := ihp
    have hvis2 : vis s (keys ++ [k]) (Command.group sub) (parents ++ [g]) =
        (Walk.continue, s1) := hvis
    have hnstop2 : (sub.walk_tree vis (keys ++ [k]) (parents ++ [g]) s1).walk =
        Walk.stop → False := hnstop
    obtain ⟨jhk, jhp, jhc⟩ := ih2 g parents (by rw [ihp2])
      (fun e he => hsub e (List.mem_cons_of_mem _ he))
    rw [walk_tree_go, hvis2]
    dsimp only
    rcases hw : (sub.walk_tree vis (keys ++ [k]) (parents ++ [g]) s1).walk
      with _ | _ | _
    all_goals dsimp only
    case stop => exact absurd hw hnstop2
    all_goals {
      refine ⟨?_, jhp, ?_⟩
      · rw [jhk, ihk2]; simp
      · intro ks2 c2 ps2 hmem
        simp only [List.mem_cons, List.mem_append, Prod.mk.injEq] at hmem
        rcases hmem with ⟨h1, h2, h3⟩ | hmem | hmem
        · subst h1; subst h2; subst h3
          exact ⟨[k], [], rfl, by simp, PathTo.here (hsub _ (List.mem_cons_self _ _))⟩
        · obtain ⟨p, ch, hks, hps, hpath⟩ := ihc ks2 c2 ps2 hmem
          have hks2 : ks2 = (keys ++ [k]) ++ p := hks
          refine ⟨k :: p, sub :: ch, by simp [hks2], by simp [hps], ?_⟩
          exact PathTo.there (hsub _ (List.mem_cons_self _ _)) hpath
        · obtain ⟨p, ch, hks, hps, hpath⟩ := jhc ks2 c2 ps2 hmem
          refine ⟨p, ch, ?_, hps, hpath⟩
          rw [hks, ihk2]
          simp
    }
  case case7 =>
    intro keys stack s k c rest ks s1 hng hvis ih g parents hstack hsub
    subst hstack
    obtain ⟨ihk, ihp, ihc⟩ := ih g parents rfl
      (fun e he => hsub e (List.mem_cons_of_mem _ he))
    have hvis2 : vis s (keys ++ [k]) c (parents ++ [g]) = (Walk.continue, s1) := hvis
    rw [walk_tree_go, hvis2]
    dsimp only
    cases c with
    | group sub => exact absurd rfl (hng sub)
    | inline cmd =>
      dsimp only
      refine ⟨ihk, ihp, ?_⟩
      intro ks2 c2 ps2 hmem
      simp only [List.mem_cons, Prod.mk.injEq] at hmem
      rcases hmem with ⟨h1, h2, h3⟩ | hmem
      · subst h1; subst h2; subst h3
        exact ⟨[k], [], rfl, by simp, PathTo.here (hsub _ (List.mem_cons_self _ _))⟩
      · exact ihc ks2 c2 ps2 hmem
    | config cfg =>
      dsimp only
      refine ⟨ihk, ihp, ?_⟩
      intro ks2 c2 ps2 hmem
      simp only [List.mem_cons, Prod.mk.injEq] at hmem
      rcases hmem with ⟨h1, h2, h3⟩ | hmem
      · subst h1; subst h2; subst h3
        exact ⟨[k], [], rfl, by simp, PathTo.here (hsub _ (List.mem_cons_self _ _))⟩
      · exact ihc ks2 c2 ps2 hmem

/-- Walker integrity for `walk_tree` itself, for every group, initial stacks,
visitor, and visitor state. -/
theorem walk_tree_spec {σ : Type}
    (vis : σ → List String → Command → List Group → Walk × σ) (g : Group)
    (keys : List String) (parents : List Group) (s : σ) :
    WalkTreeSpec vis g keys parents s := by
  match g with
  | .mk nm ds df cs es de rt md al =>
    exact walk_tree_go_spec vis cs keys
      (parents ++ [Group.mk nm ds df cs es de rt md al]) s
      (Group.mk nm ds df cs es de rt md al) parents rfl (fun _ he => he)

theorem lookup_nil {α : Type} (k : String) :
    lookup ([] : List (String × α)) k = none := rfl

theorem lookup_cons {α : Type} (p : String × α) (m : List (String × α))
    (k : String) :
    lookup (p :: m) k = if p.1 == k then some p.2 else lookup m k := by
  by_cases h : p.1 == k <;> simp [lookup, List.find?_cons, h]

theorem lookup_append {α : Type} (m1 m2 : List (String × α)) (k : String) :
    lookup (m1 ++ m2) k = (lookup m1 k).or (lookup m2 k) := by
  unfold lookup
  rw [List.find?_append]
  cases m1.find? (fun p => p.1 == k) <;> simp [Option.or]

theorem lookup_or_insert (m : List (String × Env)) (kv : String × Env)
    (k : String) :
    lookup (or_insert m kv) k =
      (lookup m k).or (if kv.1 == k then some kv.2 else none) := by
  unfold or_insert
  rcases hf : m.find? (fun p => p.1 == kv.1) with _ | p
  · simp only [hf, Option.isSome_none, Bool.false_eq_true, if_false]
    rw [lookup_append, lookup_cons, lookup_nil]
  · simp only [hf, Option.isSome_some, if_true]
    rcases hl : lookup m k with _ | v
    · by_cases hk : (kv.1 == k) = true
      · exfalso
        have hkk : kv.1 = k := eq_of_beq hk
        rw [← hkk] at hl
        unfold lookup at hl
        rw [hf] at hl
        simp at hl
      · simp [hk, Option.or]
    · simp [Option.or]

theorem lookup_insert_all (l : List (String × Env)) (init : List (String × Env))
    (k : String) :
    lookup (l.foldl or_insert init) k = (lookup init k).or (lookup l k) := by
  induction l generalizing init with
  | nil => simp [lookup_nil, Option.or_none]
  | cons kv l ih =>
    rw [List.foldl_cons, ih, lookup_or_insert, lookup_cons, Option.or_assoc]
    congr 1
    split <;> simp [Option.or]

theorem lookup_merge_maps (maps : List (List (String × Env)))
    (init : List (String × Env)) (k : String) :
    lookup (maps.foldl (fun m kvs => kvs.foldl or_insert m) init) k =
      (lookup init k).or (lookup maps.flatten k) := by
  induction maps generalizing init with
  | nil => simp [lookup_nil, Option.or_none]
  | cons kvs maps ih =>
    rw [List.foldl_cons, ih, lookup_insert_all, List.flatten_cons,
      lookup_append, Option.or_assoc]

theorem foldl_default_overwrite (l : List Group) (init : Option String) :
    l.foldl (fun acc p =>
        match p.default_env with
        | some d => some d
        | none => acc) init =
      (l.reverse.findSome? Group.default_env).or init := by
  induction l generalizing init with
  | nil => simp [Option.none_or]
  | cons p l ih =>
    rw [List.foldl_cons, ih, List.reverse_cons, List.findSome?_append,
      Option.or_assoc]
    congr 1
    rcases hd : p.default_env with _ | d <;> simp [List.findSome?, hd, Option.or]

/-- C3, counterexample: with ancestor chain `A(default_env = a)` then nearer
`B(default_env = b)` and a leaf with no own default, `resolve_envs` returns
`a` (the root-most ancestor), not the nearest ancestor's `b` that the claim
requires. -/
theorem c3_nearest_default_counterexample :
    ¬ (((Command.inline "run").resolve_envs [groupA, groupB]).2 =
      spec_nearest_default_env (Command.inline "run") [groupA, groupB]) := by
  decide

/-- C3 (amended): `resolve_envs` returns the node's own `default_env` when it
defines one; otherwise the `default_env` of the farthest (root-most)
ancestor that defines one — `parents` is ordered root-first as the walker
builds it, so `findSome?` over it selects the outermost such ancestor. -/
theorem c3_default_env_resolution (c : Command) (parents : List Group) :
    (c.resolve_envs parents).2 =
      (c.default_env).or (parents.findSome? Group.default_env) := by
  unfold Command.resolve_envs
  dsimp only
  rw [foldl_default_overwrite, List.reverse_reverse, Option.or_none]
  cases c.default_env <;> simp [Option.or]

/-- C4, counterexample: a node defining `x` under a parent that also defines
`x` ends up with the parent's entry, not its own as the claim requires. -/
theorem c4_closest_env_counterexample :
    ¬ (lookup (nodeWithX.resolve_envs
        [Group.mk none none "default" [] (some [("x", envAx)]) none none none none]).1 "x" =
      spec_closest_env_lookup nodeWithX
        [Group.mk none none "default" [] (some [("x", envAx)]) none none none none] "x") := by
  decide

/-- C4 (amended): `resolve_envs` merges with first-wins in the order nearest
ancestor, ..., farthest ancestor, then the node itself: a nearer ancestor's
entry beats a farther ancestor's, and any ancestor's entry beats the node's
own; in particular for the chain `A(envs = x)` then `B(envs = x, y)` then
leaf, the merged map for the leaf holds B's `x`. -/
theorem c4_env_merge_order :
    (∀ (c : Command) (parents : List Group) (k : String),
      lookup (c.resolve_envs parents).1 k = flat_env_lookup c parents k) ∧
    lookup ((Command.inline "run").resolve_envs [groupA, groupB]).1 "x" =
      some envBx := by
  constructor
  · intro c parents k
    unfold Command.resolve_envs flat_env_lookup
    dsimp only
    rw [lookup_merge_maps]
    simp [lookup_nil, Option.none_or]
  · decide

/-- C7: `match_env` satisfies, case for case, exactly the case analysis the
specification states (error messages erased). -/
theorem c7_match_env_cases (envs : List (String × Env)) (denv : Option String)
    (args : List String) :
    toResultOption (match_env envs denv args) = spec_match_env envs denv args := by
  cases envs with
  | nil => simp [match_env, spec_match_env, toResultOption]
  | cons e es =>
    cases args with
    | nil =>
      cases denv with
      | none => simp [match_env, spec_match_env, toResultOption]
      | some d =>
        simp only [match_env, spec_match_env, List.isEmpty_cons, List.isEmpty_nil]
        cases h : lookup (e :: es) d <;>
          simp [toResultOption, h, List.head?, Option.bind]
    | cons a rest =>
      simp only [match_env, spec_match_env, List.isEmpty_cons, List.isEmpty_nil]
      cases h : lookup (e :: es) a with
      | some v =>
        simp [toResultOption, h, List.head?, Option.bind, List.tail]
      | none =>
        cases denv with
        | none => simp [toResultOption, h, List.head?, Option.bind]
        | some d =>
          cases h2 : lookup (e :: es) d <;>
            simp [toResultOption, h, h2, List.head?, Option.bind]

theorem match_score_le (a : List (List String)) (t : List String) :
    match_score a t ≤ t.length := by
  induction t generalizing a with
  | nil => cases a <;> simp [match_score]
  | cons tt rt ih =>
    cases a with
    | nil => simp [match_score]
    | cons ks ra =>
      rw [match_score]
      by_cases h : ks.contains tt = true
      · rw [if_pos h]
        have := ih ra
        simp only [List.length_cons]
        omega
      · rw [if_neg h]
        simp

/-- C5: in exact (non-nested) dispatch, a produced match always consumed at
least as many target tokens as the node has alias-key levels (`score` is the
consumed-token count), the score is never zero, and it never exceeds the
target length. -/
theorem c5_exact_depth_bound (fp : String) (keys : List String)
    (alias_keys : List (List String)) (target : List String) (m : Match)
    (h : Match.from_command fp keys alias_keys target = some m) :
    alias_keys.length ≤ m.score ∧ 0 < m.score ∧ m.score ≤ target.length := by
  unfold Match.from_command at h
  dsimp only at h
  split at h
  · exact absurd h (by simp)
  · rename_i hcond
    simp only [Bool.or_eq_true, decide_eq_true_eq, beq_iff_eq, not_or] at hcond
    obtain ⟨hlt, hzero⟩ := hcond
    injection h with hm
    subst hm
    refine ⟨?_, ?_, match_score_le alias_keys target⟩ <;> dsimp only <;> omega

/-- Witness for C5 at a concrete input. -/
theorem c5_exact_depth_bound_witness :
    Match.from_command "f" ["k"] [["k", "alias-k"]] ["alias-k", "extra"] =
      some ⟨"f", 1, ["k"]⟩ ∧
    ([["k", "alias-k"]].length ≤ (⟨"f", 1, ["k"]⟩ : Match).score ∧
      0 < (⟨"f", 1, ["k"]⟩ : Match).score ∧
      (⟨"f", 1, ["k"]⟩ : Match).score ≤ (["alias-k", "extra"] : List String).length) :=
  ⟨rfl, c5_exact_depth_bound "f" ["k"] [["k", "alias-k"]] ["alias-k", "extra"]
    ⟨"f", 1, ["k"]⟩ rfl⟩

/-- C9: the canonical keys of a match are the literal map-key path, and so
they do not depend on which accepted alias in the target produced the
match: any two successful targets yield identical keys. -/
theorem c9_alias_canonical_keys (fp : String) (keys : List String)
    (alias_keys : List (List String)) (t1 t2 : List String) (m1 m2 : Match)
    (h1 : Match.from_command fp keys alias_keys t1 = some m1)
    (h2 : Match.from_command fp keys alias_keys t2 = some m2) :
    m1.keys = m2.keys ∧ m1.keys = keys := by
  unfold Match.from_command at h1 h2
  dsimp only at h1 h2
  split at h1
  · exact absurd h1 (by simp)
  · split at h2
    · exact absurd h2 (by simp)
    · injection h1 with e1
      injection h2 with e2
      subst e1
      subst e2
      exact ⟨rfl, rfl⟩

/-- Witness for C9: a command with aliases `[cmd, c]` matched through either
accepted name yields the same canonical keys. -/
theorem c9_alias_canonical_keys_witness :
    Match.from_command "f" ["cmd"] [["cmd", "c"]] ["cmd"] =
      some ⟨"f", 1, ["cmd"]⟩ ∧
    Match.from_command "f" ["cmd"] [["cmd", "c"]] ["c"] =
      some ⟨"f", 1, ["cmd"]⟩ ∧
    ((⟨"f", 1, ["cmd"]⟩ : Match).keys = (⟨"f", 1, ["cmd"]⟩ : Match).keys ∧
      (⟨"f", 1, ["cmd"]⟩ : Match).keys = ["cmd"]) :=
  ⟨rfl, rfl, c9_alias_canonical_keys "f" ["cmd"] [["cmd", "c"]] ["cmd"] ["c"]
    ⟨"f", 1, ["cmd"]⟩ ⟨"f", 1, ["cmd"]⟩ rfl rfl⟩

/-- C6: for a node whose own root configuration has scope `GitRoot` and whose
path resolves, `is_in_scope` returns true exactly when a repository root was
discovered, the current directory is inside it, and it equals the resolved
target path; an undiscovered root gives `false`, not an error. The check
reads only the node's own root (`item_root`); `is_in_scope` takes no
ancestors at all. -/
theorem c6_git_root_scope (resolve : String → Except String Path) (c : Command)
    (current_dir : Path) (git_root : Option Path) (rc : RootConfig)
    (target_path : Path)
    (hroot : c.item_root = some rc) (hscope : rc.scope = RootScope.gitRoot)
    (hres : resolve rc.path = .ok target_path) :
    c.is_in_scope resolve current_dir git_root =
      .ok (match git_root with
        | some gr => gr.isPrefixOf current_dir && gr == target_path
        | none => false) ∧
    (c.is_in_scope resolve current_dir git_root = .ok true ↔
      ∃ gr, git_root = some gr ∧ gr.isPrefixOf current_dir = true ∧
        gr = target_path) := by
  have heq : c.is_in_scope resolve current_dir git_root =
      .ok (match git_root with
        | some gr => gr.isPrefixOf current_dir && gr == target_path
        | none => false) := by
    unfold Command.is_in_scope Command.own_root
    rw [hroot]
    dsimp only
    rw [hres]
    dsimp only
    rw [hscope]
    cases git_root <;> rfl
  refine ⟨heq, ?_⟩
  rw [heq]
  cases git_root with
  | none => simp
  | some gr =>
    simp only [Except.ok.injEq, Bool.and_eq_true, beq_iff_eq, Option.some.injEq]
    constructor
    · intro hx
      exact ⟨gr, rfl, hx.1, hx.2⟩
    · rintro ⟨gr2, h1, h2, h3⟩
      cases h1
      exact ⟨h2, h3⟩

/-- Witness for C6: inside the repository and with the detected root equal to
the configured path the node is visible; with no repository detected it is
skipped without error. -/
theorem c6_git_root_scope_witness :
    (Command.group gitScopedGroup).item_root =
      some ⟨"/repo", RootScope.gitRoot⟩ ∧
    resolve_lit "/repo" = .ok ["/repo"] ∧
    (Command.group gitScopedGroup).is_in_scope resolve_lit ["/repo", "sub"]
      (some ["/repo"]) = .ok true ∧
    (Command.group gitScopedGroup).is_in_scope resolve_lit ["/repo", "sub"]
      none = .ok false ∧
    (Command.group gitScopedGroup).is_in_scope resolve_lit ["/repo", "sub"]
      (some ["/other"]) = .ok false := by
  have h1 := c6_git_root_scope resolve_lit (Command.group gitScopedGroup)
    ["/repo", "sub"] (some ["/repo"]) ⟨"/repo", RootScope.gitRoot⟩ ["/repo"]
    rfl rfl rfl
  have h2 := c6_git_root_scope resolve_lit (Command.group gitScopedGroup)
    ["/repo", "sub"] none ⟨"/repo", RootScope.gitRoot⟩ ["/repo"] rfl rfl rfl
  have h3 := c6_git_root_scope resolve_lit (Command.group gitScopedGroup)
    ["/repo", "sub"] (some ["/other"]) ⟨"/repo", RootScope.gitRoot⟩ ["/repo"]
    rfl rfl rfl
  refine ⟨rfl, rfl, ?_, ?_, ?_⟩
  · rw [h1.1]
    rfl
  · rw [h2.1]
  · rw [h3.1]
    rfl

theorem match_command_go_override_pre (resolve : String → Except String Path)
    (target : List String) (current_dir : Path) (git_root : Option Path)
    (f : DsFile) (rest : List DsFile) (ms : List Match) (hms : ms ≠ [])
    (hf : f.matches resolve target current_dir git_root = .ok ms) :
    ∀ pre : List DsFile,
      (∀ q ∈ pre, q.matches resolve target current_dir git_root = .ok []) →
      match_command_go resolve .override target current_dir git_root []
        (pre ++ f :: rest) = .ok ms.reverse := by
  intro pre
  induction pre with
  | nil =>
    intro _
    rw [List.nil_append, match_command_go, hf]
    dsimp only
    rw [List.nil_append]
    have hne : ms.reverse.isEmpty = false := by
      simp [List.isEmpty_iff, hms]
    rw [hne]
    simp
  | cons q pre ih =>
    intro hpre
    have hq := hpre q (List.mem_cons_self _ _)
    rw [List.cons_append, match_command_go, hq]
    dsimp only
    exact ih (fun e he => hpre e (List.mem_cons_of_mem _ he))

/-- C2: under the Override policy the first source in priority order with a
non-empty match set supplies the chosen match (the last of its matches,
since they are appended reversed and the head is taken), and the sources
after it do not appear in the result at all. -/
theorem c2_override_first_source_wins (resolve : String → Except String Path)
    (target : List String) (current_dir : Path) (git_root : Option Path)
    (pre : List DsFile) (f : DsFile) (rest : List DsFile) (ms : List Match)
    (m : Match)
    (hpre : ∀ q ∈ pre, q.matches resolve target current_dir git_root = .ok [])
    (hf : f.matches resolve target current_dir git_root = .ok ms)
    (hm : ms.getLast? = some m) :
    match_command resolve .override (pre ++ f :: rest) target current_dir
      git_root = .ok m := by
  have hms : ms ≠ [] := by
    intro h
    rw [h] at hm
    simp at hm
  unfold match_command
  rw [match_command_go_override_pre resolve target current_dir git_root f rest
    ms hms hf pre hpre]
  dsimp only
  rw [List.head?_reverse, hm]

theorem match_command_go_error_conflict (resolve : String → Except String Path)
    (target : List String) (current_dir : Path) (git_root : Option Path)
    (f : DsFile) (ms : List Match) (rest : List DsFile)
    (hf : f.matches resolve target current_dir git_root = .ok ms) :
    ∀ (pre : List DsFile) (mss : List (List Match)),
      List.Forall₂
        (fun q fms => q.matches resolve target current_dir git_root = .ok fms)
        pre mss →
      ∀ acc : List Match,
        2 ≤ acc.length + (mss.map List.length).sum + ms.length →
        match_command_go resolve .error target current_dir git_root acc
          (pre ++ f :: rest) = .error "Conflict detected in group" := by
  intro pre mss hall
  induction hall with
  | nil =>
    intro acc hcount
    rw [List.nil_append, match_command_go, hf]
    dsimp only
    have hlen : (acc ++ ms.reverse).length > 1 := by
      simp only [List.length_append, List.length_reverse]
      simp only [List.map_nil, List.sum_nil] at hcount
      omega
    rw [if_pos hlen]
  | cons hq hrest ih =>
    intro acc hcount
    rw [List.cons_append, match_command_go, hq]
    dsimp only
    rename_i q fms pre2 mss2
    by_cases hlen : (acc ++ fms.reverse).length > 1
    · rw [if_pos hlen]
    · rw [if_neg hlen]
      apply ih
      simp only [List.length_append, List.length_reverse]
      simp only [List.map_cons, List.sum_cons] at hcount
      omega

/-- C1 (amended): under the Error policy, as soon as the running total of
matches collected across the already-examined sources exceeds one,
`match_command` fails immediately with the fixed conflict error
`Conflict detected in group` (which does not name the ambiguous path), and
in particular never returns a chosen command when two sources each match
the target. -/
theorem c1_error_policy_conflict (resolve : String → Except String Path)
    (target : List String) (current_dir : Path) (git_root : Option Path)
    (pre : List DsFile) (mss : List (List Match)) (f : DsFile) (ms : List Match)
    (rest : List DsFile)
    (hpre : List.Forall₂
      (fun q fms => q.matches resolve target current_dir git_root = .ok fms)
      pre mss)
    (hf : f.matches resolve target current_dir git_root = .ok ms)
    (hcount : 2 ≤ (mss.map List.length).sum + ms.length) :
    match_command resolve .error (pre ++ f :: rest) target current_dir
      git_root = .error "Conflict detected in group" := by
  unfold match_command
  rw [match_command_go_error_conflict resolve target current_dir git_root f ms
    rest hf pre mss hpre [] (by simpa using hcount)]

/-- C1, counterexample to the claim as stated: two sources both define
`build`; resolution under the Error policy does fail, but the error message
is the fixed string `Conflict detected in group`, which does not name the
ambiguous path (`build` occurs nowhere in it). -/
theorem c1_conflict_counterexample :
    match_command resolve_stub .error [conflictFileA, conflictFileB] ["build"]
      [] none = .error "Conflict detected in group" ∧
    has_slice "Conflict detected in group".toList "build".toList = false :=
  ⟨rfl, rfl⟩

/-- Witness for C1 at the two-source conflict. -/
theorem c1_error_policy_conflict_witness :
    conflictFileA.matches resolve_stub ["build"] [] none =
      .ok [⟨"a.json", 1, ["build"]⟩] ∧
    conflictFileB.matches resolve_stub ["build"] [] none =
      .ok [⟨"b.json", 1, ["build"]⟩] ∧
    match_command resolve_stub .error [conflictFileA, conflictFileB] ["build"]
      [] none = .error "Conflict detected in group" :=
  ⟨rfl, rfl,
    c1_error_policy_conflict resolve_stub ["build"] [] none [conflictFileA]
      [[⟨"a.json", 1, ["build"]⟩]] conflictFileB [⟨"b.json", 1, ["build"]⟩] []
      (List.Forall₂.cons rfl List.Forall₂.nil) rfl (by simp)⟩

/-- Witness for C2: an empty higher-priority source is passed over, the first
source with matches supplies the chosen match, and the lower-priority
conflicting source is never consulted. -/
theorem c2_override_first_source_wins_witness :
    emptyFile.matches resolve_stub ["build"] [] none = .ok [] ∧
    conflictFileA.matches resolve_stub ["build"] [] none =
      .ok [⟨"a.json", 1, ["build"]⟩] ∧
    match_command resolve_stub .override [emptyFile, conflictFileA, conflictFileB]
      ["build"] [] none = .ok ⟨"a.json", 1, ["build"]⟩ :=
  ⟨rfl, rfl,
    c2_override_first_source_wins resolve_stub ["build"] [] none [emptyFile]
      conflictFileA [conflictFileB] [⟨"a.json", 1, ["build"]⟩]
      ⟨"a.json", 1, ["build"]⟩
      (by
        intro q hq
        simp only [List.mem_singleton] at hq
        subst hq
        rfl)
      rfl rfl⟩

/-- C10: at every visitor invocation the keys vector is exactly the literal
key path of the visited node and the parents vector is exactly the
root-to-parent group chain, and for every visitor behaviour (any mix of
Continue, Skip and Stop, with any visitor state) `walk_tree` returns with
the keys and parents stacks holding exactly their contents from before the
call. -/
theorem c10_walk_tree_stack_integrity {σ : Type}
    (vis : σ → List String → Command → List Group → Walk × σ) (g : Group)
    (keys : List String) (parents : List Group) (s : σ) :
    (g.walk_tree vis keys parents s).keys = keys ∧
    (g.walk_tree vis keys parents s).parents = parents ∧
    ∀ ks c ps, (ks, c, ps) ∈ (g.walk_tree vis keys parents s).calls →
      ∃ p ch, ks = keys ++ p ∧ ps = parents ++ g :: ch ∧ PathTo g p c ch :=
  walk_tree_spec vis g keys parents s

/-- Witness for C10: on a concrete two-level tree the stacks are restored and
the third visited call (`b c`) observed its literal key path and chain. -/
theorem c10_walk_tree_stack_integrity_witness :
    (witTop.walk_tree witVis [] [] 0).keys = [] ∧
    (witTop.walk_tree witVis [] [] 0).parents = [] ∧
    (∃ p ch, (["b", "c"] : List String) = [] ++ p ∧
      ([witTop, witSub] : List Group) = [] ++ witTop :: ch ∧
      PathTo witTop p (Command.inline "y") ch) := by
  obtain ⟨h1, h2, h3⟩ := c10_walk_tree_stack_integrity witVis witTop [] [] 0
  refine ⟨h1, h2, h3 ["b", "c"] (Command.inline "y") [witTop, witSub] ?_⟩
  exact List.mem_cons_of_mem _ (List.mem_cons_of_mem _ (List.mem_cons_self _ _))

end DS
